import Mathlib

/-!
Verification development for the breizorro masking pipeline
(`src/breizorro/breizorro.py`).

The pipeline derives a boolean region-of-interest mask from a 2-D real-valued
image: it calibrates an order-statistic correction ratio from the standard
normal CDF (sampled on a 1000-point grid over [-10, 10]), applies a sliding
minimum filter to produce a local noise map (with a floor guard and a
median-clamp guard), thresholds the image against the noise map, zeroes the
outermost border ring of the mask, and optionally applies binary dilation
(4-connected cross) and hole filling (border flood fill on the complement).

Images are embedded as functions `Fin H → Fin W → ℝ` (one entry per pixel);
boolean masks as `Fin H → Fin W → Bool`.  Floating-point arithmetic of the
source is embedded as exact real arithmetic.
-/

namespace Breizorro

/-- A 2-D real-valued image of shape H x W (numpy float array). -/
abbrev Image (H W : ℕ) := Fin H → Fin W → ℝ

/-- A 2-D boolean mask of shape H x W (numpy bool array). -/
abbrev Mask (H W : ℕ) := Fin H → Fin W → Bool

/-- Minimum of a list of reals (numpy reduction over a filter window);
junk value 0 on the empty list, which scipy rejects up front. -/
noncomputable def listMin : List ℝ → ℝ
  | [] => 0
  | x :: xs => xs.foldl min x

/-- numpy.median of a flat list: sort, take the middle element when the
length is odd, else the mean of the two middle elements. -/
noncomputable def median (l : List ℝ) : ℝ :=
  let s := l.insertionSort (· ≤ ·)
  if l.length % 2 = 1 then s.getD (l.length / 2) 0
  else (s.getD (l.length / 2 - 1) 0 + s.getD (l.length / 2) 0) / 2

/-- Row-major flattening of a 2-D array into a list (numpy ravel order). -/
def flatten {H W : ℕ} (f : Fin H → Fin W → ℝ) : List ℝ :=
  (List.finRange H).flatMap fun i => (List.finRange W).map fun j => f i j

/-- Index folding of scipy.ndimage mode='reflect' (pattern d c b a | a b c d |
d c b a): an out-of-range index is reflected about the array edge, with
period 2*H. -/
def reflectIdx (H : ℕ) (t : ℤ) : ℕ :=
  (if t % (2 * (H : ℤ)) < (H : ℤ) then t % (2 * (H : ℤ))
   else 2 * (H : ℤ) - 1 - t % (2 * (H : ℤ))).toNat

theorem reflectIdx_lt (H : ℕ) (t : ℤ) (hH : 0 < H) : reflectIdx H t < H := by
  have h2 : (0 : ℤ) < 2 * (H : ℤ) := by
    have : (0 : ℤ) < (H : ℤ) := by exact_mod_cast hH
    omega
  have hm0 : 0 ≤ t % (2 * (H : ℤ)) := Int.emod_nonneg t (by omega)
  have hml : t % (2 * (H : ℤ)) < 2 * (H : ℤ) := Int.emod_lt_of_pos t h2
  unfold reflectIdx
  split <;> omega

/-- The list of image values covered by the `b x b` window of
scipy.ndimage.minimum_filter centred (with origin 0) at pixel (i, j),
with reflect boundary handling.  For size b the window spans offsets
-(b/2) .. b - b/2 - 1 on each axis. -/
def windowVals {H W : ℕ} (img : Image H W) (b : ℕ) (i : Fin H) (j : Fin W) :
    List ℝ :=
  (List.range b).flatMap fun (di : ℕ) =>
    (List.range b).map fun (dj : ℕ) =>
      img ⟨reflectIdx H ((i.val : ℤ) + (di : ℤ) - ((b / 2 : ℕ) : ℤ)),
           reflectIdx_lt H _ i.pos⟩
          ⟨reflectIdx W ((j.val : ℤ) + (dj : ℤ) - ((b / 2 : ℕ) : ℤ)),
           reflectIdx_lt W _ j.pos⟩

/-- scipy.ndimage.minimum_filter with a square box of side b and the default
reflect boundary mode, evaluated at pixel (i, j). -/
noncomputable def minFilter {H W : ℕ} (img : Image H W) (b : ℕ) (i : Fin H)
    (j : Fin W) : ℝ :=
  listMin (windowVals img b i j)

/-- The Gauss error function scipy.special.erf,
erf z = 2/sqrt(pi) * integral of exp(-t^2) for t from 0 to z. -/
noncomputable def erf (z : ℝ) : ℝ :=
  2 / Real.sqrt Real.pi * ∫ t in (0 : ℝ)..z, Real.exp (-t ^ 2)

/-- The sampled standard normal CDF of the source:
f = 0.5 * (1 + erf(x / sqrt 2)). -/
noncomputable def fCDF (x : ℝ) : ℝ := 0.5 * (1 + erf (x / Real.sqrt 2))

/-- numpy.linspace(-10, 10, 1000): the 1000-point sample grid,
gridX[k] = -10 + 20*k/999. -/
noncomputable def gridX : List ℝ :=
  (List.range 1000).map fun (k : ℕ) => -10 + 20 * (k : ℝ) / 999

/-- The samples of F = 1 - (1 - f)^n on the grid: the CDF used for the
order-statistic calibration (n is the real exponent boxsize**2.0). -/
noncomputable def Fsamples (n : ℝ) : List ℝ :=
  gridX.map fun xv => 1 - (1 - fCDF xv) ^ n

/-- numpy.interp(v, xp, fp): piecewise-linear interpolation with clamping to
the end values, assuming xp is increasing.  The two list arguments are the
sample x-coordinates (xp) and the sample values (fp). -/
noncomputable def interp (v : ℝ) : List ℝ → List ℝ → ℝ
  | a :: b :: xp, c :: d :: fp =>
    if v ≤ a then c
    else if v ≤ b then c + (v - a) * (d - c) / (b - a)
    else interp v (b :: xp) (d :: fp)
  | _ :: _, c :: _ => c
  | _, _ => 0

/-- The calibration ratio of make_noise_map:
ratio = |numpy.interp(0.5, F, x)| with n = boxsize**2.0. -/
noncomputable def calibrationRatio (boxsize : ℕ) : ℝ :=
  |interp 0.5 (Fsamples ((boxsize : ℝ) ^ (2 : ℕ))) gridX|

/-- Line 59 of the source: noise = -minimum_filter(image, box) / ratio. -/
noncomputable def noiseRaw {H W : ℕ} (img : Image H W) (b : ℕ) (i : Fin H)
    (j : Fin W) : ℝ :=
  -minFilter img b i j / calibrationRatio b

/-- Lines 60-61: the floor guard, noise[noise < 0] = 1.0e-10. -/
noncomputable def noiseFloored {H W : ℕ} (img : Image H W) (b : ℕ) (i : Fin H)
    (j : Fin W) : ℝ :=
  if noiseRaw img b i j < 0 then 1e-10 else noiseRaw img b i j

/-- Line 62: median_noise = numpy.median(noise), taken after the floor guard. -/
noncomputable def medianNoise {H W : ℕ} (img : Image H W) (b : ℕ) : ℝ :=
  median (flatten (noiseFloored img b))

/-- make_noise_map (lines 49-66): the noise map after the floor guard and the
median-clamp guard noise[noise < median_noise] = median_noise. -/
noncomputable def makeNoiseMap {H W : ℕ} (img : Image H W) (b : ℕ) :
    Fin H → Fin W → ℝ :=
  fun i j =>
    if noiseFloored img b i j < medianNoise img b then medianNoise img b
    else noiseFloored img b i j

/-- Line 103: mask_image = input_image > threshold * noise_image. -/
noncomputable def threshMask {H W : ℕ} (img : Image H W) (threshold : ℝ)
    (noise : Fin H → Fin W → ℝ) : Mask H W :=
  fun i j => decide (img i j > threshold * noise i j)

/-- Column assignment mask[:, c] = v. -/
def assignCol {H W : ℕ} (c : ℕ) (v : Bool) (m : Mask H W) : Mask H W :=
  fun i j => if j.val = c then v else m i j

/-- Row assignment mask[r, :] = v. -/
def assignRow {H W : ℕ} (r : ℕ) (v : Bool) (m : Mask H W) : Mask H W :=
  fun i j => if i.val = r then v else m i j

/-- Lines 105-108: mask[:, -1] = 0; mask[:, 0] = 0; mask[0, :] = 0;
mask[-1, :] = 0. -/
def borderSuppress {H W : ℕ} (m : Mask H W) : Mask H W :=
  assignRow (H - 1) false (assignRow 0 false
    (assignCol 0 false (assignCol (W - 1) false m)))

/-- Bounds-checked lookup with value false outside the grid (the
border_value=0 policy of scipy binary_dilation). -/
def get0 {H W : ℕ} (m : Mask H W) (x y : ℤ) : Bool :=
  if h : 0 ≤ x ∧ x < (H : ℤ) ∧ 0 ≤ y ∧ y < (W : ℤ) then
    m ⟨x.toNat, by omega⟩ ⟨y.toNat, by omega⟩
  else false

/-- True when some 4-neighbour of (i, j) is set (neighbours outside the grid
count as false). -/
def nbhdAny {H W : ℕ} (m : Mask H W) (i : Fin H) (j : Fin W) : Bool :=
  get0 m ((i.val : ℤ) - 1) (j.val : ℤ) || get0 m ((i.val : ℤ) + 1) (j.val : ℤ) ||
  get0 m (i.val : ℤ) ((j.val : ℤ) - 1) || get0 m (i.val : ℤ) ((j.val : ℤ) + 1)

/-- One pass of scipy binary_dilation with the default structuring element
generate_binary_structure(2, 1), the 4-connected cross (centre included),
and border_value=0. -/
def dilateStep {H W : ℕ} (m : Mask H W) : Mask H W :=
  fun i j => m i j || nbhdAny m i j

/-- k sequential passes of binary dilation. -/
def dilate {H W : ℕ} (m : Mask H W) (k : ℕ) : Mask H W :=
  (dilateStep (H := H) (W := W))^[k] m

/-- scipy binary_dilation(input, iterations): for iterations < 1 the dilation
is repeated until the result no longer changes; on an H x W grid the
monotone iteration is stationary after H*W passes. -/
def scipyDilate {H W : ℕ} (m : Mask H W) (iterations : ℤ) : Mask H W :=
  if iterations < 1 then dilate m (H * W) else dilate m iterations.toNat

/-- True on the outermost border ring of the grid (these pixels have a
neighbour outside the grid). -/
def onBorderB {H W : ℕ} (i : Fin H) (j : Fin W) : Bool :=
  (i.val == 0) || (i.val == H - 1) || (j.val == 0) || (j.val == W - 1)

/-- One pass of the masked binary dilation inside scipy binary_fill_holes:
tmp grows by the 4-connected cross within the complement of the input, with
border_value=1 (every out-of-grid pixel counts as already set, which seeds
the border ring). -/
def floodStep {H W : ℕ} (m : Mask H W) (S : Mask H W) : Mask H W :=
  fun i j => !m i j && (S i j || onBorderB i j || nbhdAny S i j)

/-- The flood of the complement of m reachable from the border: the masked
dilation loop of binary_fill_holes run to stability (H*W passes suffice on
an H x W grid; stationarity is proved below). -/
def flood {H W : ℕ} (m : Mask H W) : Mask H W :=
  (floodStep m)^[H * W] (fun _ _ => false)

/-- scipy binary_fill_holes (line 117): the result is the complement of the
border-reachable flood of the complement of the input. -/
def fillHoles {H W : ℕ} (m : Mask H W) : Mask H W :=
  fun i j => !flood m i j

/-- The 4-adjacency relation on pixels. -/
def adj {H W : ℕ} (p q : Fin H × Fin W) : Prop :=
  (p.1 = q.1 ∧ (p.2.val + 1 = q.2.val ∨ q.2.val + 1 = p.2.val)) ∨
  (p.2 = q.2 ∧ (p.1.val + 1 = q.1.val ∨ q.1.val + 1 = p.1.val))

/-- p lies in a false region of m that is 4-connected to the image border:
some border pixel b is false in m and a path of false pixels joins b to p. -/
def Reach {H W : ℕ} (m : Mask H W) (p : Fin H × Fin W) : Prop :=
  ∃ b : Fin H × Fin W, onBorderB b.1 b.2 = true ∧ m b.1 b.2 = false ∧
    Relation.ReflTransGen (fun q r => adj q r ∧ m r.1 r.2 = false) b p

/-- The post-parsing core of main (lines 83-117): noise map, threshold mask,
border suppression, optional dilation (if dilate != 0), optional hole
filling.  The source performs no parameter validation; a non-positive
boxsize aborts only inside the noise-map stage, where
scipy.ndimage.minimum_filter rejects a non-positive window size (modelled
as the none result). -/
noncomputable def mainPipeline {H W : ℕ} (img : Image H W) (threshold : ℝ)
    (boxsize : ℤ) (dilateIters : ℤ) (fillFlag : Bool) : Option (Mask H W) :=
  if boxsize ≤ 0 then none
  else
    let noise := makeNoiseMap img boxsize.toNat
    let mask1 := threshMask img threshold noise
    let mask2 := borderSuppress mask1
    let mask3 := if dilateIters ≠ 0 then scipyDilate mask2 dilateIters else mask2
    let mask4 := if fillFlag then fillHoles mask3 else mask3
    some mask4

/-! ### List and median helper lemmas -/

theorem foldl_min_le_init (ys : List ℝ) (acc : ℝ) : ys.foldl min acc ≤ acc := by
  induction ys generalizing acc with
  | nil => exact le_refl _
  | cons z zs ih =>
    calc (z :: zs).foldl min acc = zs.foldl min (min acc z) := rfl
    _ ≤ min acc z := ih _
    _ ≤ acc := min_le_left _ _

theorem foldl_min_le_mem {ys : List ℝ} {x : ℝ} (hx : x ∈ ys) (acc : ℝ) :
    ys.foldl min acc ≤ x := by
  induction ys generalizing acc with
  | nil => cases hx
  | cons z zs ih =>
    rcases List.mem_cons.mp hx with h | h
    · subst h
      calc (x :: zs).foldl min acc = zs.foldl min (min acc x) := rfl
      _ ≤ min acc x := foldl_min_le_init _ _
      _ ≤ x := min_le_right _ _
    · exact ih h _

theorem le_foldl_min {ys : List ℝ} {c acc : ℝ} (hacc : c ≤ acc)
    (h : ∀ x ∈ ys, c ≤ x) : c ≤ ys.foldl min acc := by
  induction ys generalizing acc with
  | nil => exact hacc
  | cons z zs ih =>
    exact ih (le_min hacc (h z (List.mem_cons_self _ _)))
      (fun x hx => h x (List.mem_cons_of_mem _ hx))

theorem listMin_eq_zero {l : List ℝ} (h0 : (0 : ℝ) ∈ l)
    (hnn : ∀ x ∈ l, 0 ≤ x) : listMin l = 0 := by
  cases l with
  | nil => cases h0
  | cons y ys =>
    refine le_antisymm ?_ ?_
    · rcases List.mem_cons.mp h0 with h | h
      · rw [listMin, ← h]
        exact foldl_min_le_init _ _
      · exact foldl_min_le_mem h _
    · exact le_foldl_min (hnn y (List.mem_cons_self _ _))
        (fun x hx => hnn x (List.mem_cons_of_mem _ hx))

theorem getD_nonneg {l : List ℝ} (h : ∀ x ∈ l, 0 ≤ x) (i : ℕ) :
    0 ≤ l.getD i 0 := by
  by_cases hi : i < l.length
  · rw [List.getD_eq_getElem l 0 hi]
    exact h _ (List.getElem_mem hi)
  · rw [List.getD_eq_default l 0 (le_of_not_lt hi)]

theorem median_nonneg {l : List ℝ} (h : ∀ x ∈ l, 0 ≤ x) : 0 ≤ median l := by
  have hs : ∀ x ∈ l.insertionSort (· ≤ ·), 0 ≤ x := by
    intro x hx
    exact h x ((List.perm_insertionSort (· ≤ ·) l).mem_iff.mp hx)
  unfold median
  split
  · exact getD_nonneg hs _
  · have h1 := getD_nonneg hs (l.length / 2 - 1)
    have h2 := getD_nonneg hs (l.length / 2)
    positivity

theorem median_const {l : List ℝ} {c : ℝ} (hne : l ≠ [])
    (h : ∀ x ∈ l, x = c) : median l = c := by
  have hs : ∀ x ∈ l.insertionSort (· ≤ ·), x = c := by
    intro x hx
    exact h x ((List.perm_insertionSort (· ≤ ·) l).mem_iff.mp hx)
  have hlen : (l.insertionSort (· ≤ ·)).length = l.length :=
    (List.perm_insertionSort (· ≤ ·) l).length_eq
  have hpos : 0 < l.length := List.length_pos.mpr hne
  have hgd : ∀ i : ℕ, i < l.length → (l.insertionSort (· ≤ ·)).getD i 0 = c := by
    intro i hi
    rw [List.getD_eq_getElem _ 0 (by omega)]
    exact hs _ (List.getElem_mem _)
  unfold median
  dsimp only
  split
  · exact hgd _ (by omega)
  · rename_i hodd
    have he : l.length % 2 = 0 := by omega
    have h2 : 2 ≤ l.length := by omega
    rw [hgd _ (by omega), hgd _ (by omega)]
    ring

theorem mem_flatten {H W : ℕ} (f : Fin H → Fin W → ℝ) (i : Fin H) (j : Fin W) :
    f i j ∈ flatten f := by
  unfold flatten
  exact List.mem_flatMap.mpr ⟨i, List.mem_finRange i,
    List.mem_map.mpr ⟨j, List.mem_finRange j, rfl⟩⟩

theorem flatten_forall {H W : ℕ} {f : Fin H → Fin W → ℝ} {P : ℝ → Prop}
    (h : ∀ i j, P (f i j)) : ∀ x ∈ flatten f, P x := by
  intro x hx
  rcases List.mem_flatMap.mp hx with ⟨i, -, hx⟩
  rcases List.mem_map.mp hx with ⟨j, -, rfl⟩
  exact h i j

/-! ### Noise-map invariants -/

theorem noiseFloored_nonneg {H W : ℕ} (img : Image H W) (b : ℕ) (i : Fin H)
    (j : Fin W) : 0 ≤ noiseFloored img b i j := by
  unfold noiseFloored
  split
  · norm_num
  · exact le_of_not_lt (by assumption)

theorem medianNoise_nonneg {H W : ℕ} (img : Image H W) (b : ℕ) :
    0 ≤ medianNoise img b :=
  median_nonneg (flatten_forall (noiseFloored_nonneg img b))

theorem makeNoiseMap_nonneg {H W : ℕ} (img : Image H W) (b : ℕ) (i : Fin H)
    (j : Fin W) : 0 ≤ makeNoiseMap img b i j := by
  unfold makeNoiseMap
  split
  · exact medianNoise_nonneg img b
  · exact noiseFloored_nonneg img b i j

theorem noiseFloored_of_minFilter_zero {H W : ℕ} {img : Image H W} {b : ℕ}
    (h : ∀ i j, minFilter img b i j = 0) (i : Fin H) (j : Fin W) :
    noiseFloored img b i j = 0 := by
  have hraw : noiseRaw img b i j = 0 := by
    unfold noiseRaw
    rw [h, neg_zero, zero_div]
  unfold noiseFloored
  rw [hraw]
  norm_num

theorem makeNoiseMap_of_minFilter_zero {H W : ℕ} {img : Image H W} {b : ℕ}
    (h : ∀ i j, minFilter img b i j = 0) (i : Fin H) (j : Fin W) :
    makeNoiseMap img b i j = 0 := by
  have hmed : medianNoise img b = 0 := by
    unfold medianNoise
    refine median_const ?_ ?_
    · exact List.ne_nil_of_mem (mem_flatten _ i j)
    · exact flatten_forall (noiseFloored_of_minFilter_zero h)
  unfold makeNoiseMap
  rw [hmed, noiseFloored_of_minFilter_zero h]
  norm_num

/-! ### Window membership helpers for concrete scenarios -/

theorem windowVals_mem {H W : ℕ} (img : Image H W) (b : ℕ) (i : Fin H)
    (j : Fin W) (di dj : ℕ) (hdi : di < b) (hdj : dj < b) :
    img ⟨reflectIdx H ((i.val : ℤ) + (di : ℤ) - ((b / 2 : ℕ) : ℤ)),
         reflectIdx_lt H _ i.pos⟩
        ⟨reflectIdx W ((j.val : ℤ) + (dj : ℤ) - ((b / 2 : ℕ) : ℤ)),
         reflectIdx_lt W _ j.pos⟩ ∈ windowVals img b i j := by
  unfold windowVals
  simp only [List.mem_flatMap, List.mem_map, List.mem_range]
  exact ⟨di, hdi, dj, hdj, rfl⟩

theorem windowVals_forall {H W : ℕ} {img : Image H W} {P : ℝ → Prop}
    (h : ∀ i j, P (img i j)) (b : ℕ) (i : Fin H) (j : Fin W) :
    ∀ x ∈ windowVals img b i j, P x := by
  intro x hx
  unfold windowVals at hx
  rcases List.mem_flatMap.mp hx with ⟨di, -, hx⟩
  rcases List.mem_map.mp hx with ⟨dj, -, rfl⟩
  exact h _ _

/-! ### Concrete scenario images -/

/-- The all-zero 5 x 5 image of the first spec scenario. -/
noncomputable def zero5 : Image 5 5 := fun _ _ => 0

/-- The 7 x 7 image that is 0 everywhere except pixel (3,3) = 100. -/
noncomputable def img73 : Image 7 7 :=
  fun i j => if i.val = 3 ∧ j.val = 3 then 100 else 0

/-- A 5 x 5 image that is 0 everywhere except pixel (1,2) = 100; pixel (1,2)
is interior but adjacent to the border ring. -/
noncomputable def img510 : Image 5 5 :=
  fun i j => if i.val = 1 ∧ j.val = 2 then 100 else 0

theorem minFilter_zero5 : ∀ i j, minFilter zero5 3 i j = 0 := by
  intro i j
  apply listMin_eq_zero
  · exact windowVals_mem zero5 3 i j 0 0 (by norm_num) (by norm_num)
  · exact windowVals_forall (P := fun x => 0 ≤ x) (fun _ _ => le_refl 0) 3 i j

theorem row_choice_7 : ∀ i : Fin 7, ∃ di : Fin 3,
    reflectIdx 7 ((i.val : ℤ) + ((di.val : ℕ) : ℤ) - ((3 / 2 : ℕ) : ℤ)) ≠ 3 := by
  decide

theorem img73_nonneg : ∀ i j, 0 ≤ img73 i j := by
  intro i j
  unfold img73
  split <;> norm_num

theorem minFilter_img73 : ∀ i j, minFilter img73 3 i j = 0 := by
  intro i j
  obtain ⟨di, hdi⟩ := row_choice_7 i
  have hmem := windowVals_mem img73 3 i j di.val 0 di.isLt (by norm_num)
  have hv : img73
      ⟨reflectIdx 7 ((i.val : ℤ) + ((di.val : ℕ) : ℤ) - ((3 / 2 : ℕ) : ℤ)),
       reflectIdx_lt 7 _ i.pos⟩
      ⟨reflectIdx 7 ((j.val : ℤ) + ((0 : ℕ) : ℤ) - ((3 / 2 : ℕ) : ℤ)),
       reflectIdx_lt 7 _ j.pos⟩ = 0 := by
    unfold img73
    exact if_neg (fun h => hdi h.1)
  apply listMin_eq_zero
  · rw [← hv]
    exact hmem
  · exact windowVals_forall (P := fun x => 0 ≤ x) img73_nonneg 3 i j

theorem row_choice_5 : ∀ i : Fin 5, ∃ di : Fin 3,
    reflectIdx 5 ((i.val : ℤ) + ((di.val : ℕ) : ℤ) - ((3 / 2 : ℕ) : ℤ)) ≠ 1 := by
  decide

theorem img510_nonneg : ∀ i j, 0 ≤ img510 i j := by
  intro i j
  unfold img510
  split <;> norm_num

theorem minFilter_img510 : ∀ i j, minFilter img510 3 i j = 0 := by
  intro i j
  obtain ⟨di, hdi⟩ := row_choice_5 i
  have hmem := windowVals_mem img510 3 i j di.val 0 di.isLt (by norm_num)
  have hv : img510
      ⟨reflectIdx 5 ((i.val : ℤ) + ((di.val : ℕ) : ℤ) - ((3 / 2 : ℕ) : ℤ)),
       reflectIdx_lt 5 _ i.pos⟩
      ⟨reflectIdx 5 ((j.val : ℤ) + ((0 : ℕ) : ℤ) - ((3 / 2 : ℕ) : ℤ)),
       reflectIdx_lt 5 _ j.pos⟩ = 0 := by
    unfold img510
    exact if_neg (fun h => hdi h.1)
  apply listMin_eq_zero
  · rw [← hv]
    exact hmem
  · exact windowVals_forall (P := fun x => 0 ≤ x) img510_nonneg 3 i j

theorem noiseMap_zero5 : ∀ i j, makeNoiseMap zero5 3 i j = 0 :=
  makeNoiseMap_of_minFilter_zero minFilter_zero5

theorem noiseMap_img73 : ∀ i j, makeNoiseMap img73 3 i j = 0 :=
  makeNoiseMap_of_minFilter_zero minFilter_img73

theorem noiseMap_img510 : ∀ i j, makeNoiseMap img510 3 i j = 0 :=
  makeNoiseMap_of_minFilter_zero minFilter_img510

/-! ### Threshold masks of the concrete scenarios -/

theorem threshMask_zero5 (t : ℝ) :
    ∀ i j, threshMask zero5 t (makeNoiseMap zero5 3) i j = false := by
  intro i j
  have h := noiseMap_zero5 i j
  simp [threshMask, h, zero5]

/-- The Bool mask whose only set pixel is (3,3). -/
def mask73raw : Mask 7 7 := fun i j => decide (i.val = 3 ∧ j.val = 3)

theorem threshMask_img73 :
    threshMask img73 1 (makeNoiseMap img73 3) = mask73raw := by
  funext i j
  have h := noiseMap_img73 i j
  unfold threshMask mask73raw
  rw [h, mul_zero]
  by_cases hc : i.val = 3 ∧ j.val = 3
  · simp [img73, hc]
  · simp [img73, hc]

/-- The Bool mask whose only set pixel is (1,2). -/
def mask510raw : Mask 5 5 := fun i j => decide (i.val = 1 ∧ j.val = 2)

theorem threshMask_img510 :
    threshMask img510 1 (makeNoiseMap img510 3) = mask510raw := by
  funext i j
  have h := noiseMap_img510 i j
  unfold threshMask mask510raw
  rw [h, mul_zero]
  by_cases hc : i.val = 1 ∧ j.val = 2
  · simp [img510, hc]
  · simp [img510, hc]

/-! ### Border suppression -/

theorem borderSuppress_eq {H W : ℕ} (m : Mask H W) (i : Fin H) (j : Fin W) :
    borderSuppress m i j =
      if i.val = 0 ∨ i.val = H - 1 ∨ j.val = 0 ∨ j.val = W - 1 then false
      else m i j := by
  unfold borderSuppress assignRow assignCol
  by_cases h1 : i.val = H - 1 <;> by_cases h2 : i.val = 0 <;>
    by_cases h3 : j.val = 0 <;> by_cases h4 : j.val = W - 1 <;>
    simp [h1, h2, h3, h4]

theorem borderSuppress_degenerate {H W : ℕ} (m : Mask H W) (i : Fin H)
    (j : Fin W) (h : H ≤ 2 ∨ W ≤ 2) : borderSuppress m i j = false := by
  rw [borderSuppress_eq]
  rcases h with h | h
  · exact if_pos (by have := i.isLt; omega)
  · exact if_pos (by have := j.isLt; omega)

/-! ### Dilation -/

theorem dilate_zero {H W : ℕ} (m : Mask H W) : dilate m 0 = m := rfl

theorem dilate_succ {H W : ℕ} (m : Mask H W) (k : ℕ) :
    dilate m (k + 1) = dilateStep (dilate m k) := by
  unfold dilate
  exact Function.iterate_succ_apply' dilateStep k m

theorem dilate_le_succ {H W : ℕ} (m : Mask H W) (k : ℕ) (i : Fin H)
    (j : Fin W) : dilate m k i j ≤ dilate m (k + 1) i j := by
  rw [dilate_succ]
  unfold dilateStep
  cases h : dilate m k i j
  · exact Bool.false_le _
  · simp

/-! ### Flood fill: monotonicity and stationarity -/

theorem bool_eq_of_iff {a b : Bool} (h : a = true ↔ b = true) : a = b := by
  cases a <;> cases b <;> simp_all

theorem get0_eq_true_iff {H W : ℕ} (m : Mask H W) (x y : ℤ) :
    get0 m x y = true ↔
      ∃ (a : Fin H) (b : Fin W), (a.val : ℤ) = x ∧ (b.val : ℤ) = y ∧
        m a b = true := by
  unfold get0
  split
  · rename_i h
    constructor
    · intro hm
      exact ⟨⟨x.toNat, by omega⟩, ⟨y.toNat, by omega⟩,
        by show ((x.toNat : ℕ) : ℤ) = x; omega,
        by show ((y.toNat : ℕ) : ℤ) = y; omega, hm⟩
    · rintro ⟨a, b, hax, hby, hm⟩
      have ha : a = ⟨x.toNat, by omega⟩ :=
        Fin.ext (by show a.val = x.toNat; omega)
      have hb : b = ⟨y.toNat, by omega⟩ :=
        Fin.ext (by show b.val = y.toNat; omega)
      rw [ha, hb] at hm
      exact hm
  · rename_i h
    constructor
    · intro hfalse
      cases hfalse
    · rintro ⟨a, b, hax, hby, hm⟩
      exfalso
      have h1 := a.isLt
      have h2 := b.isLt
      omega

theorem get0_mono {H W : ℕ} {S T : Mask H W}
    (hle : ∀ i j, S i j = true → T i j = true) (x y : ℤ)
    (h : get0 S x y = true) : get0 T x y = true := by
  rw [get0_eq_true_iff] at h ⊢
  obtain ⟨a, b, hax, hby, hm⟩ := h
  exact ⟨a, b, hax, hby, hle a b hm⟩

theorem nbhdAny_mono {H W : ℕ} {S T : Mask H W}
    (hle : ∀ i j, S i j = true → T i j = true) (i : Fin H) (j : Fin W)
    (h : nbhdAny S i j = true) : nbhdAny T i j = true := by
  unfold nbhdAny at h ⊢
  simp only [Bool.or_eq_true] at h ⊢
  rcases h with ((h | h) | h) | h
  · exact Or.inl (Or.inl (Or.inl (get0_mono hle _ _ h)))
  · exact Or.inl (Or.inl (Or.inr (get0_mono hle _ _ h)))
  · exact Or.inl (Or.inr (get0_mono hle _ _ h))
  · exact Or.inr (get0_mono hle _ _ h)

theorem floodStep_mono {H W : ℕ} (m : Mask H W) {S T : Mask H W}
    (hle : ∀ i j, S i j = true → T i j = true) :
    ∀ i j, floodStep m S i j = true → floodStep m T i j = true := by
  intro i j h
  unfold floodStep at h ⊢
  simp only [Bool.and_eq_true, Bool.or_eq_true] at h ⊢
  refine ⟨h.1, ?_⟩
  rcases h.2 with (h2 | h2) | h2
  · exact Or.inl (Or.inl (hle i j h2))
  · exact Or.inl (Or.inr h2)
  · exact Or.inr (nbhdAny_mono hle i j h2)

theorem floodIter_le_succ {H W : ℕ} (m : Mask H W) (n : ℕ) :
    ∀ i j, (floodStep m)^[n] (fun _ _ => false) i j = true →
      (floodStep m)^[n + 1] (fun _ _ => false) i j = true := by
  induction n with
  | zero =>
    intro i j h
    cases h
  | succ n ih =>
    have e1 : (floodStep m)^[n + 1] (fun _ _ => false) =
        floodStep m ((floodStep m)^[n] (fun _ _ => false)) :=
      Function.iterate_succ_apply' _ _ _
    have e2 : (floodStep m)^[n + 2] (fun _ _ => false) =
        floodStep m ((floodStep m)^[n + 1] (fun _ _ => false)) :=
      Function.iterate_succ_apply' _ _ _
    rw [e1, e2]
    exact floodStep_mono m ih

/-- The number of set pixels of a mask. -/
def countTrue {H W : ℕ} (S : Mask H W) : ℕ :=
  (Finset.univ.filter fun p : Fin H × Fin W => S p.1 p.2 = true).card

theorem countTrue_le {H W : ℕ} (S : Mask H W) : countTrue S ≤ H * W := by
  unfold countTrue
  calc (Finset.univ.filter fun p : Fin H × Fin W => S p.1 p.2 = true).card
      ≤ (Finset.univ : Finset (Fin H × Fin W)).card :=
        Finset.card_filter_le _ _
    _ = H * W := by simp

theorem countTrue_strict {H W : ℕ} {S T : Mask H W}
    (hle : ∀ i j, S i j = true → T i j = true) (hne : S ≠ T) :
    countTrue S < countTrue T := by
  have hw : ∃ i j, S i j ≠ T i j := by
    by_contra hc
    push_neg at hc
    exact hne (funext fun i => funext fun j => hc i j)
  obtain ⟨i, j, hij⟩ := hw
  have hS : S i j = false := by
    cases hval : S i j
    · rfl
    · exact absurd (hval.trans (hle i j hval).symm) hij
  have hT : T i j = true := by
    cases hval : T i j
    · exact absurd (hS.trans hval.symm) hij
    · rfl
  apply Finset.card_lt_card
  constructor
  · intro p hp
    simp only [Finset.mem_filter, Finset.mem_univ, true_and] at hp ⊢
    exact hle p.1 p.2 hp
  · intro hsub
    have := hsub (by
      simp only [Finset.mem_filter, Finset.mem_univ, true_and]
      exact hT : (i, j) ∈ Finset.univ.filter
        fun p : Fin H × Fin W => T p.1 p.2 = true)
    simp only [Finset.mem_filter, Finset.mem_univ, true_and] at this
    rw [hS] at this
    cases this

theorem flood_exists_stable {H W : ℕ} (m : Mask H W) :
    ∃ n ≤ H * W, (floodStep m)^[n + 1] (fun _ _ => false) =
      (floodStep m)^[n] (fun _ _ => false) := by
  by_contra hc
  push_neg at hc
  have hgrow : ∀ n, n ≤ H * W + 1 →
      n ≤ countTrue ((floodStep m)^[n] (fun _ _ => false)) := by
    intro n
    induction n with
    | zero => omega
    | succ n ih =>
      intro hn
      have h1 : n ≤ countTrue ((floodStep m)^[n] (fun _ _ => false)) :=
        ih (by omega)
      have h2 : countTrue ((floodStep m)^[n] (fun _ _ => false)) <
          countTrue ((floodStep m)^[n + 1] (fun _ _ => false)) :=
        countTrue_strict (floodIter_le_succ m n) (Ne.symm (hc n (by omega)))
      omega
  have := hgrow (H * W + 1) (le_refl _)
  have := countTrue_le ((floodStep m)^[H * W + 1] (fun _ _ => false))
  omega

theorem flood_stable_propagates {H W : ℕ} (m : Mask H W) {n : ℕ}
    (hst : (floodStep m)^[n + 1] (fun _ _ => false) =
      (floodStep m)^[n] (fun _ _ => false)) :
    ∀ k, n ≤ k → (floodStep m)^[k] (fun _ _ => false) =
      (floodStep m)^[n] (fun _ _ => false) := by
  intro k
  induction k with
  | zero =>
    intro hk
    have : n = 0 := by omega
    rw [this]
  | succ k ih =>
    intro hk
    rcases Nat.lt_or_ge n (k + 1) with h | h
    · have hnk : n ≤ k := by omega
      calc (floodStep m)^[k + 1] (fun _ _ => false)
          = floodStep m ((floodStep m)^[k] (fun _ _ => false)) :=
            Function.iterate_succ_apply' _ _ _
        _ = floodStep m ((floodStep m)^[n] (fun _ _ => false)) := by
            rw [ih hnk]
        _ = (floodStep m)^[n + 1] (fun _ _ => false) :=
            (Function.iterate_succ_apply' _ _ _).symm
        _ = (floodStep m)^[n] (fun _ _ => false) := hst
    · have : n = k + 1 := by omega
      rw [this]

theorem flood_fix {H W : ℕ} (m : Mask H W) :
    floodStep m (flood m) = flood m := by
  obtain ⟨n, hn, hst⟩ := flood_exists_stable m
  show floodStep m ((floodStep m)^[H * W] (fun _ _ => false)) =
    (floodStep m)^[H * W] (fun _ _ => false)
  rw [flood_stable_propagates m hst (H * W) hn]
  calc floodStep m ((floodStep m)^[n] (fun _ _ => false))
      = (floodStep m)^[n + 1] (fun _ _ => false) :=
        (Function.iterate_succ_apply' _ _ _).symm
    _ = (floodStep m)^[n] (fun _ _ => false) := hst

/-! ### Flood fill: reachability characterisation -/

theorem nbhd_of_adj {H W : ℕ} {S : Mask H W} {q r : Fin H × Fin W}
    (hadj : adj q r) (hS : S q.1 q.2 = true) : nbhdAny S r.1 r.2 = true := by
  unfold nbhdAny
  simp only [Bool.or_eq_true]
  unfold adj at hadj
  rcases hadj with ⟨h1, h2 | h2⟩ | ⟨h1, h2 | h2⟩
  · refine Or.inl (Or.inr ?_)
    rw [get0_eq_true_iff]
    exact ⟨q.1, q.2, by rw [h1], by omega, hS⟩
  · refine Or.inr ?_
    rw [get0_eq_true_iff]
    exact ⟨q.1, q.2, by rw [h1], by omega, hS⟩
  · refine Or.inl (Or.inl (Or.inl ?_))
    rw [get0_eq_true_iff]
    exact ⟨q.1, q.2, by omega, by rw [h1], hS⟩
  · refine Or.inl (Or.inl (Or.inr ?_))
    rw [get0_eq_true_iff]
    exact ⟨q.1, q.2, by omega, by rw [h1], hS⟩

theorem nbhd_inv {H W : ℕ} {S : Mask H W} {i : Fin H} {j : Fin W}
    (h : nbhdAny S i j = true) :
    ∃ q : Fin H × Fin W, adj q (i, j) ∧ S q.1 q.2 = true := by
  unfold nbhdAny at h
  simp only [Bool.or_eq_true] at h
  rcases h with ((h | h) | h) | h <;> rw [get0_eq_true_iff] at h <;>
    obtain ⟨a, b, hax, hby, hm⟩ := h
  · exact ⟨(a, b), Or.inr ⟨Fin.ext (show b.val = j.val by omega),
      Or.inl (show a.val + 1 = i.val by omega)⟩, hm⟩
  · exact ⟨(a, b), Or.inr ⟨Fin.ext (show b.val = j.val by omega),
      Or.inr (show i.val + 1 = a.val by omega)⟩, hm⟩
  · exact ⟨(a, b), Or.inl ⟨Fin.ext (show a.val = i.val by omega),
      Or.inl (show b.val + 1 = j.val by omega)⟩, hm⟩
  · exact ⟨(a, b), Or.inl ⟨Fin.ext (show a.val = i.val by omega),
      Or.inr (show j.val + 1 = b.val by omega)⟩, hm⟩

theorem flood_compl {H W : ℕ} (m : Mask H W) (i : Fin H) (j : Fin W)
    (h : flood m i j = true) : m i j = false := by
  have h2 : floodStep m (flood m) i j = true := by
    rw [flood_fix]
    exact h
  unfold floodStep at h2
  simp only [Bool.and_eq_true, Bool.not_eq_true'] at h2
  exact h2.1

theorem reach_tail {H W : ℕ} {m : Mask H W} {q r : Fin H × Fin W}
    (h : Reach m q) (hadj : adj q r) (hmr : m r.1 r.2 = false) :
    Reach m r := by
  obtain ⟨b, h1, h2, h3⟩ := h
  exact ⟨b, h1, h2, h3.tail ⟨hadj, hmr⟩⟩

theorem reach_to_flood {H W : ℕ} {m : Mask H W} {p : Fin H × Fin W}
    (h : Reach m p) : flood m p.1 p.2 = true := by
  obtain ⟨b, hb, hmb, hpath⟩ := h
  induction hpath with
  | refl =>
    rw [← flood_fix m]
    unfold floodStep
    simp [hmb, hb]
  | tail hqr hstep ih =>
    obtain ⟨hadj, hmr⟩ := hstep
    rw [← flood_fix m]
    unfold floodStep
    simp only [Bool.and_eq_true, Bool.or_eq_true, Bool.not_eq_true']
    exact ⟨hmr, Or.inr (nbhd_of_adj hadj ih)⟩

theorem floodIter_to_reach {H W : ℕ} (m : Mask H W) :
    ∀ n (i : Fin H) (j : Fin W),
      (floodStep m)^[n] (fun _ _ => false) i j = true → Reach m (i, j) := by
  intro n
  induction n with
  | zero =>
    intro i j h
    cases h
  | succ n ih =>
    intro i j h
    rw [Function.iterate_succ_apply'] at h
    unfold floodStep at h
    simp only [Bool.and_eq_true, Bool.or_eq_true, Bool.not_eq_true'] at h
    obtain ⟨hm, hrest⟩ := h
    rcases hrest with (h1 | h1) | h1
    · exact ih i j h1
    · exact ⟨(i, j), h1, hm, Relation.ReflTransGen.refl⟩
    · obtain ⟨q, hadj, hq⟩ := nbhd_inv h1
      exact reach_tail (ih q.1 q.2 hq) hadj hm

theorem flood_to_reach {H W : ℕ} {m : Mask H W} {i : Fin H} {j : Fin W}
    (h : flood m i j = true) : Reach m (i, j) :=
  floodIter_to_reach m (H * W) i j h

theorem reach_mono_mask {H W : ℕ} {m m' : Mask H W}
    (hsub : ∀ i j, m' i j = false → m i j = false) {p : Fin H × Fin W}
    (h : Reach m' p) : Reach m p := by
  obtain ⟨b, hb, hmb, hpath⟩ := h
  exact ⟨b, hb, hsub _ _ hmb,
    Relation.ReflTransGen.mono (fun q r hqr => ⟨hqr.1, hsub _ _ hqr.2⟩) hpath⟩

theorem reach_strengthen {H W : ℕ} {m : Mask H W} {p : Fin H × Fin W}
    (h : Reach m p) : Reach (fillHoles m) p := by
  obtain ⟨b, hb, hmb, hpath⟩ := h
  have hfb : fillHoles m b.1 b.2 = false := by
    have hfl : flood m b.1 b.2 = true :=
      reach_to_flood ⟨b, hb, hmb, Relation.ReflTransGen.refl⟩
    unfold fillHoles
    simp [hfl]
  suffices hs : Relation.ReflTransGen
      (fun q r => adj q r ∧ fillHoles m r.1 r.2 = false) b p ∧ Reach m p by
    exact ⟨b, hb, hfb, hs.1⟩
  induction hpath with
  | refl => exact ⟨Relation.ReflTransGen.refl, ⟨b, hb, hmb,
      Relation.ReflTransGen.refl⟩⟩
  | @tail q r hqr hstep ih =>
    obtain ⟨pfill, hreach⟩ := ih
    obtain ⟨hadj, hmr⟩ := hstep
    have hreach2 := reach_tail hreach hadj hmr
    have hfr : fillHoles m r.1 r.2 = false := by
      have := reach_to_flood hreach2
      unfold fillHoles
      simp [this]
    exact ⟨pfill.tail ⟨hadj, hfr⟩, hreach2⟩

theorem fillHoles_false_to_compl {H W : ℕ} (m : Mask H W) (i : Fin H)
    (j : Fin W) (hf : fillHoles m i j = false) : m i j = false := by
  have hfl : flood m i j = true := by
    unfold fillHoles at hf
    cases hval : flood m i j
    · rw [hval] at hf
      cases hf
    · rfl
  exact flood_compl m i j hfl

theorem flood_fill_eq {H W : ℕ} (m : Mask H W) :
    flood (fillHoles m) = flood m := by
  funext i j
  apply bool_eq_of_iff
  constructor
  · intro h
    exact reach_to_flood
      (reach_mono_mask (fillHoles_false_to_compl m) (flood_to_reach h))
  · intro h
    exact reach_to_flood (reach_strengthen (flood_to_reach h))

theorem fillHoles_idem {H W : ℕ} (m : Mask H W) :
    fillHoles (fillHoles m) = fillHoles m := by
  funext i j
  show (!flood (fillHoles m) i j) = (!flood m i j)
  rw [flood_fill_eq]

theorem fillHoles_border_false {H W : ℕ} (m : Mask H W) (p : Fin H × Fin W)
    (hr : Reach m p) : fillHoles m p.1 p.2 = false := by
  have := reach_to_flood hr
  unfold fillHoles
  simp [this]

/-! ### Pipeline evaluation lemmas -/

theorem makeNoiseMap_ge_median {H W : ℕ} (img : Image H W) (b : ℕ) (i : Fin H)
    (j : Fin W) : medianNoise img b ≤ makeNoiseMap img b i j := by
  unfold makeNoiseMap
  split
  · exact le_refl _
  · exact le_of_not_lt (by assumption)

theorem mainPipeline_pos {H W : ℕ} (img : Image H W) (t : ℝ) (b d : ℤ)
    (fl : Bool) (hb : 1 ≤ b) :
    mainPipeline img t b d fl =
      (let noise := makeNoiseMap img b.toNat
       let mask1 := threshMask img t noise
       let mask2 := borderSuppress mask1
       let mask3 := if d ≠ 0 then scipyDilate mask2 d else mask2
       let mask4 := if fl then fillHoles mask3 else mask3
       some mask4) := by
  unfold mainPipeline
  rw [if_neg (by omega)]

theorem mainPipeline_isSome {H W : ℕ} (img : Image H W) (t : ℝ) (b d : ℤ)
    (fl : Bool) (hb : 1 ≤ b) : (mainPipeline img t b d fl).isSome = true := by
  rw [mainPipeline_pos img t b d fl hb]
  rfl

theorem mainPipeline_zero5 :
    mainPipeline zero5 (-1) 3 0 false = some (fun _ _ => false) := by
  rw [mainPipeline_pos zero5 (-1) 3 0 false (by norm_num)]
  dsimp only
  rw [if_neg (show ¬((0 : ℤ) ≠ 0) by norm_num), if_neg Bool.false_ne_true]
  congr 1
  funext i j
  rw [borderSuppress_eq]
  split
  · rfl
  · exact threshMask_zero5 (-1) i j

/-- The plus shape centred at (1,2) on the 5 x 5 grid: the dilation by one
pass of the singleton mask at (1,2).  Pixel (0,2) lies on the border ring. -/
def final510 : Mask 5 5 := fun i j =>
  decide ((i.val, j.val) ∈ ([(1,2),(0,2),(2,2),(1,1),(1,3)] : List (ℕ × ℕ)))

theorem mainPipeline_img510 :
    mainPipeline img510 1 3 1 false = some final510 := by
  rw [mainPipeline_pos img510 1 3 1 false (by norm_num)]
  dsimp only
  rw [if_pos (show (1 : ℤ) ≠ 0 by norm_num), if_neg Bool.false_ne_true]
  congr 1
  rw [show ((3 : ℤ)).toNat = 3 from rfl, threshMask_img510]
  unfold scipyDilate
  rw [if_neg (show ¬((1 : ℤ) < 1) by norm_num)]
  rw [show borderSuppress mask510raw = mask510raw by decide]
  show dilate mask510raw ((1 : ℤ)).toNat = final510
  decide

/-- The plus shape centred at (3,3) on the 7 x 7 grid. -/
def plus73 : Mask 7 7 := fun i j =>
  decide ((i.val, j.val) ∈ ([(3,3),(2,3),(4,3),(3,2),(3,4)] : List (ℕ × ℕ)))

/-! ### Claim theorems -/

/-- C1 (corrected): for the all-zero 5 x 5 image with boxsize 3 the noise map
is NOT uniformly 1e-10: the floor guard replaces only strictly negative
values, and every windowed minimum is exactly 0, so the value at (0,0)
is 0, not 1e-10. -/
theorem C1_counterexample : makeNoiseMap zero5 3 0 0 ≠ 1e-10 := by
  rw [noiseMap_zero5 0 0]
  norm_num

/-- C1 (amended): for the all-zero 5 x 5 image with boxsize 3 the noise map
is uniformly 0, and for any positive threshold the mask after border
suppression is all false. -/
theorem C1_theorem (t : ℝ) (_ht : 0 < t) :
    (∀ i j, makeNoiseMap zero5 3 i j = 0) ∧
    (∀ i j, borderSuppress (threshMask zero5 t (makeNoiseMap zero5 3)) i j
      = false) := by
  refine ⟨noiseMap_zero5, ?_⟩
  intro i j
  rw [borderSuppress_eq]
  split
  · rfl
  · exact threshMask_zero5 t i j

/-- Witness for C1 at the concrete threshold 1. -/
theorem C1_witness :
    (0 : ℝ) < 1 ∧
    ((∀ i j, makeNoiseMap zero5 3 i j = 0) ∧
     (∀ i j, borderSuppress (threshMask zero5 1 (makeNoiseMap zero5 3)) i j
       = false)) :=
  ⟨by norm_num, C1_theorem 1 (by norm_num)⟩

/-- C2 (corrected): the noise map is not strictly positive everywhere: on the
all-zero image every entry is 0. -/
theorem C2_counterexample : ¬ 0 < makeNoiseMap zero5 3 0 0 := by
  rw [noiseMap_zero5 0 0]
  exact lt_irrefl 0

/-- C2 (amended): for every image and every positive boxsize, every element
of the noise map is nonnegative. -/
theorem C2_theorem {H W : ℕ} (img : Image H W) (b : ℕ) (_hb : 0 < b) :
    ∀ i j, 0 ≤ makeNoiseMap img b i j :=
  fun i j => makeNoiseMap_nonneg img b i j

/-- Witness for C2 on the all-zero image with boxsize 3. -/
theorem C2_witness :
    0 < 3 ∧ ∀ i j, 0 ≤ makeNoiseMap zero5 3 i j :=
  ⟨by norm_num, C2_theorem zero5 3 (by norm_num)⟩

/-- C3 (corrected): a non-positive threshold is NOT rejected: with
threshold = -1 the pipeline executes every stage and returns an all-false
mask for the all-zero 5 x 5 image (boxsize 3, no dilation, no filling). -/
theorem C3_counterexample :
    mainPipeline zero5 (-1) 3 0 false = some (fun _ _ => false) :=
  mainPipeline_zero5

/-- C3 (amended): the source performs no parameter validation: for every
threshold (any sign), every dilate count (any sign) and every fill flag,
the pipeline runs to completion whenever boxsize is at least 1; a
non-positive boxsize aborts only inside the noise-map stage. -/
theorem C3_theorem {H W : ℕ} (img : Image H W) (t : ℝ) (b d : ℤ) (fl : Bool)
    (hb : 1 ≤ b) : (mainPipeline img t b d fl).isSome = true :=
  mainPipeline_isSome img t b d fl hb

/-- Witness for C3: threshold -1, dilate -1 and hole filling enabled all run
to completion. -/
theorem C3_witness :
    (1 : ℤ) ≤ 3 ∧ (mainPipeline zero5 (-1) 3 (-1) true).isSome = true :=
  ⟨by norm_num, C3_theorem zero5 (-1) 3 (-1) true (by norm_num)⟩

/-- C5 (confirmed): border suppression zeroes row 0, row H-1, column 0 and
column W-1, leaves all other pixels unchanged, and on degenerate shapes
(H at most 2 or W at most 2) the whole mask becomes false. -/
theorem C5_theorem {H W : ℕ} (m : Mask H W) (i : Fin H) (j : Fin W) :
    (borderSuppress m i j =
      if i.val = 0 ∨ i.val = H - 1 ∨ j.val = 0 ∨ j.val = W - 1 then false
      else m i j) ∧
    (H ≤ 2 ∨ W ≤ 2 → borderSuppress m i j = false) :=
  ⟨borderSuppress_eq m i j, borderSuppress_degenerate m i j⟩

/-- Witness for C5 on a 2 x 3 all-true mask: the degenerate clause fires. -/
theorem C5_witness :
    ((2 : ℕ) ≤ 2 ∨ (3 : ℕ) ≤ 2) ∧
    borderSuppress (fun _ _ => true : Mask 2 3) 0 1 = false :=
  ⟨Or.inl (le_refl 2),
   (C5_theorem (fun _ _ => true : Mask 2 3) 0 1).2 (Or.inl (le_refl 2))⟩

/-- C6 (confirmed): dilation with the 4-connected cross is monotone in the
iteration count, and zero iterations is the identity. -/
theorem C6_theorem {H W : ℕ} (m : Mask H W) (k : ℕ) :
    (∀ i j, dilate m k i j ≤ dilate m (k + 1) i j) ∧ dilate m 0 = m :=
  ⟨dilate_le_succ m k, dilate_zero m⟩

/-- C7 (confirmed): after the median clamp, every noise-map element is at
least the median of the post-floor noise values. -/
theorem C7_theorem {H W : ℕ} (img : Image H W) (b : ℕ) (i : Fin H)
    (j : Fin W) : medianNoise img b ≤ makeNoiseMap img b i j :=
  makeNoiseMap_ge_median img b i j

/-- C8 (confirmed): hole filling is idempotent, and every false pixel whose
false region touches the border stays false. -/
theorem C8_theorem :
    (∀ (H W : ℕ) (m : Mask H W), fillHoles (fillHoles m) = fillHoles m) ∧
    (∀ (H W : ℕ) (m : Mask H W) (p : Fin H × Fin W),
      m p.1 p.2 = false → Reach m p → fillHoles m p.1 p.2 = false) :=
  ⟨fun _ _ m => fillHoles_idem m,
   fun _ _ m p _ hr => fillHoles_border_false m p hr⟩

/-- Witness for C8 on the 3 x 3 all-false mask at the border pixel (0,0). -/
theorem C8_witness :
    (fun _ _ => false : Mask 3 3) 0 0 = false ∧
    fillHoles (fun _ _ => false : Mask 3 3) 0 0 = false := by
  have hreach : Reach (fun _ _ => false : Mask 3 3) (0, 0) :=
    ⟨(0, 0), by decide, rfl, Relation.ReflTransGen.refl⟩
  exact ⟨rfl, C8_theorem.2 3 3 _ (0, 0) rfl hreach⟩

/-- C9 (confirmed): for the 7 x 7 image with a single 100 at (3,3),
threshold 1 and boxsize 3, the thresholded-and-border-suppressed mask is
exactly the singleton at (3,3), and one dilation pass yields exactly the
5-pixel plus shape centred at (3,3). -/
theorem C9_theorem :
    borderSuppress (threshMask img73 1 (makeNoiseMap img73 3)) = mask73raw ∧
    dilate (borderSuppress (threshMask img73 1 (makeNoiseMap img73 3))) 1
      = plus73 := by
  have h1 : borderSuppress (threshMask img73 1 (makeNoiseMap img73 3))
      = mask73raw := by
    rw [threshMask_img73]
    decide
  refine ⟨h1, ?_⟩
  rw [h1]
  decide

/-- C10 (confirmed): because dilation runs after border suppression, the
final pipeline output can carry a true pixel on the border ring: for the
5 x 5 image with a single 100 at the interior pixel (1,2), threshold 1,
boxsize 3 and one dilation pass, the output mask is the plus shape at
(1,2), whose pixel (0,2) lies on row 0. -/
theorem C10_theorem :
    mainPipeline img510 1 3 1 false = some final510 ∧ final510 0 2 = true :=
  ⟨mainPipeline_img510, by decide⟩

/-! ### Properties of the error function and the sampled CDF -/

theorem continuous_gauss : Continuous fun t : ℝ => Real.exp (-t ^ 2) :=
  Real.continuous_exp.comp (continuous_pow 2).neg

theorem sqrt_pi_pos : 0 < Real.sqrt Real.pi :=
  Real.sqrt_pos.mpr Real.pi_pos

theorem one_le_sqrt_pi : 1 ≤ Real.sqrt Real.pi := by
  have h : (1 : ℝ) ≤ Real.pi := by
    have := Real.pi_gt_three
    linarith
  calc (1 : ℝ) = Real.sqrt 1 := Real.sqrt_one.symm
    _ ≤ Real.sqrt Real.pi := Real.sqrt_le_sqrt h

theorem one_le_sqrt_two : 1 ≤ Real.sqrt 2 := by
  calc (1 : ℝ) = Real.sqrt 1 := Real.sqrt_one.symm
    _ ≤ Real.sqrt 2 := Real.sqrt_le_sqrt (by norm_num)

theorem erf_neg_of_neg {z : ℝ} (hz : z < 0) : erf z < 0 := by
  have hpos : 0 < ∫ t in z..(0 : ℝ), Real.exp (-t ^ 2) :=
    intervalIntegral.intervalIntegral_pos_of_pos
      (continuous_gauss.intervalIntegrable z 0) (fun x => Real.exp_pos _) hz
  have hswap : (∫ t in (0 : ℝ)..z, Real.exp (-t ^ 2))
      = -∫ t in z..(0 : ℝ), Real.exp (-t ^ 2) :=
    intervalIntegral.integral_symm z 0
  unfold erf
  rw [hswap]
  exact mul_neg_of_pos_of_neg (div_pos two_pos sqrt_pi_pos) (by linarith)

theorem erf_pos_of_pos {z : ℝ} (hz : 0 < z) : 0 < erf z := by
  have hpos : 0 < ∫ t in (0 : ℝ)..z, Real.exp (-t ^ 2) :=
    intervalIntegral.intervalIntegral_pos_of_pos
      (continuous_gauss.intervalIntegrable 0 z) (fun x => Real.exp_pos _) hz
  exact mul_pos (div_pos two_pos sqrt_pi_pos) hpos

theorem erf_odd (z : ℝ) : erf (-z) = -erf z := by
  unfold erf
  have h1 : (∫ t in (0 : ℝ)..(-z), Real.exp (-t ^ 2))
      = ∫ t in (0 : ℝ)..(-z), Real.exp (-(-t) ^ 2) := by
    apply intervalIntegral.integral_congr
    intro x _
    show Real.exp (-x ^ 2) = Real.exp (-(-x) ^ 2)
    rw [neg_sq]
  rw [h1, intervalIntegral.integral_comp_neg (fun t => Real.exp (-t ^ 2)),
    neg_neg, neg_zero, intervalIntegral.integral_symm]
  ring

theorem erf_abs_le (z : ℝ) : |erf z| ≤ 2 * |z| := by
  have hI : ‖∫ t in (0 : ℝ)..z, Real.exp (-t ^ 2)‖ ≤ 1 * |z - 0| := by
    apply intervalIntegral.norm_integral_le_of_norm_le_const
    intro x _
    rw [Real.norm_eq_abs, abs_of_pos (Real.exp_pos _)]
    calc Real.exp (-x ^ 2) ≤ Real.exp 0 :=
          Real.exp_le_exp.mpr (neg_nonpos.mpr (sq_nonneg x))
      _ = 1 := Real.exp_zero
  rw [Real.norm_eq_abs, one_mul, sub_zero] at hI
  have h2 : 0 < 2 / Real.sqrt Real.pi := div_pos two_pos sqrt_pi_pos
  unfold erf
  rw [abs_mul, abs_of_pos h2]
  calc 2 / Real.sqrt Real.pi * |∫ t in (0 : ℝ)..z, Real.exp (-t ^ 2)|
      ≤ 2 * |z| := by
        apply mul_le_mul _ hI (abs_nonneg _) (by norm_num)
        exact div_le_self (by norm_num) one_le_sqrt_pi

theorem fCDF_lt_half {x : ℝ} (hx : x < 0) : fCDF x < 1 / 2 := by
  have h : erf (x / Real.sqrt 2) < 0 :=
    erf_neg_of_neg (div_neg_of_neg_of_pos hx (by linarith [one_le_sqrt_two]))
  unfold fCDF
  linarith

theorem half_lt_fCDF {x : ℝ} (hx : 0 < x) : 1 / 2 < fCDF x := by
  have h : 0 < erf (x / Real.sqrt 2) :=
    erf_pos_of_pos (div_pos hx (by linarith [one_le_sqrt_two]))
  unfold fCDF
  linarith

theorem fCDF_reflect (x : ℝ) : fCDF (-x) = 1 - fCDF x := by
  unfold fCDF
  rw [neg_div, erf_odd]
  ring

theorem fCDF_near_half (x : ℝ) : |fCDF x - 1 / 2| ≤ |x| := by
  have h1 : fCDF x - 1 / 2 = 0.5 * erf (x / Real.sqrt 2) := by
    unfold fCDF
    ring
  rw [h1, abs_mul, abs_of_pos (show (0 : ℝ) < 0.5 by norm_num)]
  have h2 : |erf (x / Real.sqrt 2)| ≤ 2 * |x / Real.sqrt 2| := erf_abs_le _
  have h3 : |x / Real.sqrt 2| ≤ |x| := by
    rw [abs_div, abs_of_pos (by linarith [one_le_sqrt_two] : (0:ℝ) < Real.sqrt 2)]
    exact div_le_self (abs_nonneg x) one_le_sqrt_two
  calc 0.5 * |erf (x / Real.sqrt 2)| ≤ 0.5 * (2 * |x|) := by
        apply mul_le_mul_of_nonneg_left _ (by norm_num)
        calc |erf (x / Real.sqrt 2)| ≤ 2 * |x / Real.sqrt 2| := h2
          _ ≤ 2 * |x| := by linarith
    _ = |x| := by ring

/-! ### The sample grid and the sampled calibration CDF -/

theorem gridX_length : gridX.length = 1000 := by simp [gridX]

theorem gridX_get (k : ℕ) (h : k < gridX.length) :
    gridX.get ⟨k, h⟩ = -10 + 20 * (k : ℝ) / 999 := by
  rw [List.get_eq_getElem]
  simp [gridX]

theorem gridX_sorted : List.Sorted (· ≤ ·) gridX := by
  refine List.pairwise_iff_get.mpr ?_
  intro i j hij
  obtain ⟨i, hi⟩ := i
  obtain ⟨j, hj⟩ := j
  rw [gridX_get i hi, gridX_get j hj]
  have hij2 : (i : ℝ) ≤ (j : ℝ) := by
    have h3 : i < j := Fin.mk_lt_mk.mp hij
    exact_mod_cast h3.le
  have h4 : 20 * (i : ℝ) / 999 ≤ 20 * (j : ℝ) / 999 := by gcongr
  linarith

theorem Fsamples_length (n : ℝ) : (Fsamples n).length = 1000 := by
  simp [Fsamples, gridX]

theorem Fsamples_get (n : ℝ) (k : ℕ) (h : k < (Fsamples n).length) :
    (Fsamples n).get ⟨k, h⟩ = 1 - (1 - fCDF (-10 + 20 * (k : ℝ) / 999)) ^ n := by
  rw [List.get_eq_getElem]
  simp [Fsamples, gridX]

/-! ### Interpolation bounds -/

theorem interp_le (v : ℝ) :
    ∀ (xp fp : List ℝ) (k : ℕ) (hk1 : k < xp.length) (hk2 : k < fp.length),
      List.Sorted (· ≤ ·) fp → v ≤ xp.get ⟨k, hk1⟩ →
      interp v xp fp ≤ fp.get ⟨k, hk2⟩ := by
  intro xp
  induction xp with
  | nil =>
    intro fp k hk1
    simp at hk1
  | cons a xp' ih =>
    intro fp k hk1 hk2 hsort hv
    cases fp with
    | nil => simp at hk2
    | cons c fp' =>
      cases xp' with
      | nil =>
        have hk : k = 0 := by
          simp at hk1
          omega
        subst hk
        have he : interp v [a] (c :: fp') = c := rfl
        rw [he]
        exact le_refl _
      | cons b xp'' =>
        cases fp' with
        | nil =>
          have hk : k = 0 := by
            simp at hk2
            omega
          subst hk
          have he : interp v (a :: b :: xp'') [c] = c := rfl
          rw [he]
          exact le_refl _
        | cons d fp'' =>
          have he : interp v (a :: b :: xp'') (c :: d :: fp'') =
              (if v ≤ a then c
               else if v ≤ b then c + (v - a) * (d - c) / (b - a)
               else interp v (b :: xp'') (d :: fp'')) := rfl
          rw [he]
          split_ifs with h1 h2
          · have h0 : (⟨0, Nat.succ_pos _⟩ : Fin (c :: d :: fp'').length)
                ≤ ⟨k, hk2⟩ := Fin.mk_le_mk.mpr (Nat.zero_le k)
            exact hsort.rel_get_of_le h0
          · have hk0 : k ≠ 0 := by
              intro h0
              subst h0
              exact h1 hv
            have hab : a < b := lt_of_lt_of_le (not_le.mp h1) h2
            have hcd : c ≤ d := (List.sorted_cons.mp hsort).1 d (by simp)
            have hd : d ≤ (c :: d :: fp'').get ⟨k, hk2⟩ := by
              have h1k : (⟨1, by simp⟩ : Fin (c :: d :: fp'').length)
                  ≤ ⟨k, hk2⟩ := Fin.mk_le_mk.mpr (by omega)
              exact hsort.rel_get_of_le h1k
            have hstep : c + (v - a) * (d - c) / (b - a) ≤ d := by
              have hba : 0 < b - a := by linarith
              have h3 : (v - a) * (d - c) ≤ (b - a) * (d - c) :=
                mul_le_mul_of_nonneg_right (by linarith) (by linarith)
              have h4 : (v - a) * (d - c) / (b - a) ≤ d - c := by
                rw [div_le_iff₀ hba]
                calc (v - a) * (d - c) ≤ (b - a) * (d - c) := h3
                  _ = (d - c) * (b - a) := mul_comm _ _
              linarith
            linarith
          · have hk0 : k ≠ 0 := by
              intro h0
              subst h0
              exact h1 hv
            obtain ⟨k2, rfl⟩ : ∃ k2, k = k2 + 1 := ⟨k - 1, by omega⟩
            have hk1b : k2 < (b :: xp'').length := by
              simp at hk1 ⊢
              omega
            have hk2b : k2 < (d :: fp'').length := by
              simp at hk2 ⊢
              omega
            exact ih (d :: fp'') k2 hk1b hk2b hsort.of_cons hv

theorem interp_crossing (v : ℝ) :
    ∀ (xp fp : List ℝ) (k : ℕ) (hk1 : k + 1 < xp.length)
      (hk2 : k + 1 < fp.length),
      (∀ j (hj : j ≤ k), xp.get ⟨j, by omega⟩ < v) →
      v ≤ xp.get ⟨k + 1, hk1⟩ →
      interp v xp fp = fp.get ⟨k, by omega⟩ +
        (v - xp.get ⟨k, by omega⟩) *
          (fp.get ⟨k + 1, hk2⟩ - fp.get ⟨k, by omega⟩) /
          (xp.get ⟨k + 1, hk1⟩ - xp.get ⟨k, by omega⟩) := by
  intro xp
  induction xp with
  | nil =>
    intro fp k hk1
    simp at hk1
  | cons a xp' ih =>
    intro fp k hk1 hk2 hlow hv
    cases xp' with
    | nil =>
      simp at hk1
    | cons b xp'' =>
      cases fp with
      | nil => simp at hk2
      | cons c fp' =>
        cases fp' with
        | nil =>
          simp at hk2
        | cons d fp'' =>
          have he : interp v (a :: b :: xp'') (c :: d :: fp'') =
              (if v ≤ a then c
               else if v ≤ b then c + (v - a) * (d - c) / (b - a)
               else interp v (b :: xp'') (d :: fp'')) := rfl
          rw [he]
          have ha : a < v := hlow 0 (Nat.zero_le k)
          cases k with
          | zero =>
            have hvb : v ≤ b := hv
            rw [if_neg (not_le.mpr ha), if_pos hvb]
            rfl
          | succ k2 =>
            have hb : b < v := hlow 1 (by omega)
            rw [if_neg (not_le.mpr ha), if_neg (not_le.mpr hb)]
            have hk1b : k2 + 1 < (b :: xp'').length := by
              simp at hk1 ⊢
              omega
            have hk2b : k2 + 1 < (d :: fp'').length := by
              simp at hk2 ⊢
              omega
            have hlow2 : ∀ j (hj : j ≤ k2),
                (b :: xp'').get ⟨j, by omega⟩ < v := by
              intro j hj
              exact hlow (j + 1) (by omega)
            exact ih (d :: fp'') k2 hk1b hk2b hlow2 hv

/-! ### The calibration ratio -/

theorem calibrationRatio_pos {b : ℕ} (hb : 2 ≤ b) : 0 < calibrationRatio b := by
  have hlen1 : (499 : ℕ) < (Fsamples ((b : ℝ) ^ (2 : ℕ))).length := by
    rw [Fsamples_length]
    norm_num
  have hlen2 : (499 : ℕ) < gridX.length := by
    rw [gridX_length]
    norm_num
  have hneg : (-10 / 999 : ℝ) < 0 := by norm_num
  have hu1 : fCDF (-10 / 999) < 1 / 2 := fCDF_lt_half hneg
  have hu3 : 1 / 2 - 10 / 999 ≤ fCDF (-10 / 999) := by
    have hu2 : |fCDF (-10 / 999) - 1 / 2| ≤ |(-10 / 999 : ℝ)| :=
      fCDF_near_half _
    have habs : |(-10 / 999 : ℝ)| = 10 / 999 := by
      rw [abs_of_neg hneg]
      norm_num
    rw [habs] at hu2
    linarith [(abs_le.mp hu2).1]
  have hbase1 : (0 : ℝ) < 1 - fCDF (-10 / 999) := by linarith
  have hbase2 : 1 - fCDF (-10 / 999) ≤ 1 := by linarith
  have hbase3 : 1 - fCDF (-10 / 999) ≤ 0.511 := by linarith
  have hn4 : (4 : ℝ) ≤ (b : ℝ) ^ (2 : ℕ) := by
    have hcast : (2 : ℝ) ≤ (b : ℝ) := by exact_mod_cast hb
    calc (4 : ℝ) = 2 ^ (2 : ℕ) := by norm_num
      _ ≤ (b : ℝ) ^ (2 : ℕ) := pow_le_pow_left₀ (by norm_num) hcast 2
  have hpow : (1 - fCDF (-10 / 999)) ^ ((b : ℝ) ^ (2 : ℕ)) < 1 / 2 := by
    calc (1 - fCDF (-10 / 999)) ^ ((b : ℝ) ^ (2 : ℕ))
        ≤ (1 - fCDF (-10 / 999)) ^ (4 : ℝ) :=
          Real.rpow_le_rpow_of_exponent_ge hbase1 hbase2 hn4
      _ = (1 - fCDF (-10 / 999)) ^ (4 : ℕ) := by
          rw [← Real.rpow_natCast (1 - fCDF (-10 / 999)) 4]
          norm_num
      _ ≤ (0.511 : ℝ) ^ (4 : ℕ) := pow_le_pow_left₀ (by linarith) hbase3 4
      _ < 1 / 2 := by norm_num
  have hF : (0.5 : ℝ) ≤ (Fsamples ((b : ℝ) ^ (2 : ℕ))).get ⟨499, hlen1⟩ := by
    rw [Fsamples_get]
    have hval : (-10 + 20 * ((499 : ℕ) : ℝ) / 999) = -10 / 999 := by norm_num
    rw [hval]
    linarith
  have hinterp : interp 0.5 (Fsamples ((b : ℝ) ^ (2 : ℕ))) gridX ≤
      gridX.get ⟨499, hlen2⟩ :=
    interp_le 0.5 (Fsamples ((b : ℝ) ^ (2 : ℕ))) gridX 499 hlen1 hlen2
      gridX_sorted hF
  have hx499 : gridX.get ⟨499, hlen2⟩ = -10 / 999 := by
    rw [gridX_get]
    norm_num
  rw [hx499] at hinterp
  unfold calibrationRatio
  apply abs_pos.mpr
  intro h0
  rw [h0] at hinterp
  norm_num at hinterp

theorem calibrationRatio_one : calibrationRatio 1 = 0 := by
  unfold calibrationRatio
  have hn : (((1 : ℕ) : ℝ)) ^ (2 : ℕ) = (1 : ℝ) := by norm_num
  rw [hn]
  have hk1 : (499 : ℕ) + 1 < (Fsamples 1).length := by
    rw [Fsamples_length]
    norm_num
  have hk2 : (499 : ℕ) + 1 < gridX.length := by
    rw [gridX_length]
    norm_num
  have hlow : ∀ j (hj : j ≤ 499), (Fsamples 1).get ⟨j, by omega⟩ < 0.5 := by
    intro j hj
    rw [Fsamples_get, Real.rpow_one]
    have hxj : (-10 + 20 * (j : ℝ) / 999) < 0 := by
      have hjc : (j : ℝ) ≤ 499 := by exact_mod_cast hj
      have hd : 20 * (j : ℝ) / 999 < 10 := by
        rw [div_lt_iff₀ (by norm_num : (0 : ℝ) < 999)]
        linarith
      linarith
    have := fCDF_lt_half hxj
    linarith
  have hv : (0.5 : ℝ) ≤ (Fsamples 1).get ⟨499 + 1, hk1⟩ := by
    rw [Fsamples_get, Real.rpow_one]
    have hx : (0 : ℝ) < -10 + 20 * (((499 : ℕ) + 1 : ℕ) : ℝ) / 999 := by
      norm_num
    have := half_lt_fCDF hx
    linarith
  have hcross := interp_crossing 0.5 (Fsamples 1) gridX 499 hk1 hk2 hlow hv
  have hg499 : gridX.get ⟨499, by omega⟩ = -10 / 999 := by
    rw [gridX_get]
    norm_num
  have hg500 : gridX.get ⟨499 + 1, hk2⟩ = 10 / 999 := by
    rw [gridX_get]
    norm_num
  have hF499 : (Fsamples 1).get ⟨499, by omega⟩ = 1 - fCDF (10 / 999) := by
    rw [Fsamples_get, Real.rpow_one]
    have hval : (-10 + 20 * ((499 : ℕ) : ℝ) / 999) = -(10 / 999) := by norm_num
    rw [hval, fCDF_reflect]
    ring
  have hF500 : (Fsamples 1).get ⟨499 + 1, hk1⟩ = fCDF (10 / 999) := by
    rw [Fsamples_get, Real.rpow_one]
    have hval : (-10 + 20 * (((499 : ℕ) + 1 : ℕ) : ℝ) / 999) = 10 / 999 := by
      norm_num
    rw [hval]
    ring
  rw [hg499, hg500, hF499, hF500] at hcross
  have hu : 1 / 2 < fCDF (10 / 999) := half_lt_fCDF (by norm_num)
  have hden : fCDF (10 / 999) - (1 - fCDF (10 / 999)) ≠ 0 := by
    intro h
    linarith
  rw [hcross]
  rw [abs_eq_zero]
  field_simp
  ring

/-- C4 (corrected): the calibration ratio is NOT strictly positive for every
positive boxsize: at boxsize = 1 the sampled CDF is the plain normal CDF,
whose interpolated crossing of 0.5 lies exactly midway between the two grid
points bracketing 0 (by the reflection symmetry of erf), so the ratio is
exactly 0. -/
theorem C4_counterexample : ¬ 0 < calibrationRatio 1 := by
  rw [calibrationRatio_one]
  exact lt_irrefl 0

/-- C4 (amended): the calibration ratio is deterministic (it is a pure
function of boxsize) and strictly positive for every boxsize of at least 2:
for n at least 4 the sampled CDF already exceeds 0.5 at grid point 499
(value -10/999), so the interpolated crossing is negative and its absolute
value positive. -/
theorem C4_theorem (b : ℕ) (hb : 2 ≤ b) : 0 < calibrationRatio b :=
  calibrationRatio_pos hb

/-- Witness for C4 at boxsize 2. -/
theorem C4_witness : 2 ≤ 2 ∧ 0 < calibrationRatio 2 :=
  ⟨le_refl 2, C4_theorem 2 (le_refl 2)⟩

end Breizorro
